import Mathlib

/-!
Verification of the multi-layer cipher pipeline of the super-cipher
repository.  The JavaScript code is embedded shallowly:

* a JS string is its list of UTF-16 code units, `List ℤ`;
* the JS remainder operator `%` truncates toward zero, which on integers
  is `Int.tmod`; `Math.floor(a / b)` on nonnegative integers is `Int.tdiv`;
* thrown JS errors become `Except` values whose error constructors record
  the information carried by the thrown message.
-/

namespace SuperCipher

/-! ### Definitions -/

/-- The thrown-error values of the cipher layer; each constructor records
the information carried by the corresponding JS `Error` message. -/
inductive CipherErr where
  | emptyKey
  | invalidCaesarFormat
  | invalidCaesarShift
  | rsaInvalidFormat
  | rsaMissing
  | rsaCorrupt
  | rsaIncomplete
  | hillBadKey
  | delegated (code : ℕ)
deriving DecidableEq, Repr

namespace HillCipher

/-- A 2×2 integer key matrix `[[a, b], [c, d]]` (the shipped configuration
always uses N = 2). -/
structure Mat2 where
  a : ℤ
  b : ℤ
  c : ℤ
  d : ℤ
deriving DecidableEq, Repr

/-- Source `determinant` specialised to size 2:
`matrix[0][0] * matrix[1][1] - matrix[0][1] * matrix[1][0]`. -/
def determinant (m : Mat2) : ℤ := m.a * m.d - m.b * m.c

/-- The value `((det % 26) + 26) % 26` computed by `isInvertible` and
`invertMatrix`. -/
def detModOf (m : Mat2) : ℤ := ((determinant m).tmod 26 + 26).tmod 26

/-- Source `isInvertible`: the determinant reduced mod 26 is coprime with 26
(the source's recursive `gcd` on nonnegative arguments is `Nat.gcd`). -/
def isInvertible (m : Mat2) : Bool := Int.gcd (detModOf m) 26 == 1

/-- Source `modInverse(a, m)`: normalise `a` into `[0, m)`, then scan
`x = 1 .. m-1` for `(a * x) % m === 1`, falling back to `1` when the scan
finds nothing. -/
def modInverse (a m : ℤ) : ℤ :=
  let a' := (a.tmod m + m).tmod m
  match (List.range' 1 (m.toNat - 1)).find? (fun x => (a' * (x : ℤ)).tmod m == 1) with
  | some x => (x : ℤ)
  | none => 1

/-- Source `invertMatrix` for size 2: the adjugate is
`[[d, -b], [-c, a]]`, each entry multiplied by the determinant inverse and
reduced by `((v % 26) + 26) % 26`. -/
def invertMatrix (m : Mat2) : Mat2 :=
  let detInv := modInverse (detModOf m) 26
  let e : ℤ → ℤ := fun cof => ((cof * detInv).tmod 26 + 26).tmod 26
  ⟨e m.d, e (-m.b), e (-m.c), e m.a⟩

/-- Source `multiplyMatrixVector` for size 2: each row is dotted with the
vector and reduced with the JS `%` operator. -/
def mulVec (m : Mat2) (x y : ℤ) : ℤ × ℤ :=
  ((m.a * x + m.b * y).tmod 26, (m.c * x + m.d * y).tmod 26)

/-- The per-block loop shared by `encrypt` and `decrypt`: each block of two
letters is mapped to values by subtracting 65, multiplied by the matrix,
and mapped back by adding 65.  All call sites present even-length input
(encryption pads to a multiple of the block size); a leftover single
element is returned unchanged. -/
def processBlocks (m : Mat2) : List ℤ → List ℤ
  | x :: y :: rest =>
    let p := mulVec m (x - 65) (y - 65)
    (p.1 + 65) :: (p.2 + 65) :: processBlocks m rest
  | l => l

/-- Source `encrypt`'s per-character 3-letter base-26 encoding of a char
code: `[65 + ⌊code/676⌋, 65 + ⌊(code % 676)/26⌋, 65 + code % 26]`
(char codes are nonnegative, so `Math.floor` of the quotient is `Int.tdiv`). -/
def encodeChar (code : ℤ) : List ℤ :=
  [65 + code.tdiv 676, 65 + ((code.tmod 676).tdiv 26), 65 + code.tmod 26]

/-- The encoding loop of `encrypt`: concatenates the 3-letter groups. -/
def encode : List ℤ → List ℤ
  | [] => []
  | code :: rest => encodeChar code ++ encode rest

/-- Source `HillCipher.encrypt`: 3-letter encode, pad with `"X"` (code 88)
to a multiple of the block size 2, prepend the 2-letter padding-length
header `[65 + ⌊pad/26⌋, 65 + pad % 26]`, and run the block transform. -/
def encrypt (pt : List ℤ) (m : Mat2) : List ℤ :=
  let encoded := encode pt
  let padded := encoded ++ List.replicate ((2 - encoded.length % 2) % 2) 88
  let paddingLength := padded.length - encoded.length
  ((65 + paddingLength / 26 : ℕ) : ℤ) :: ((65 + paddingLength % 26 : ℕ) : ℤ)
    :: processBlocks m padded

/-- The decoding loop of `decrypt`: each 3-letter group becomes the char
code `(a-65)*676 + (b-65)*26 + (c-65)`.  A leftover partial group would go
through JS `NaN` coercion and produce the single char code 0; this case is
unreachable from `encrypt` output. -/
def decode3 : List ℤ → List ℤ
  | a :: b :: c :: rest => ((a - 65) * 676 + (b - 65) * 26 + (c - 65)) :: decode3 rest
  | [] => []
  | _ => [0]

/-- Source `HillCipher.decrypt`: read the 2-letter padding header, apply the
inverse matrix blockwise, trim the recorded padding, and decode the
3-letter groups.  A ciphertext shorter than 2 produces the empty string
(JS `NaN` propagation yields `""`). -/
def decrypt (ct : List ℤ) (m : Mat2) : List ℤ :=
  match ct with
  | c0 :: c1 :: actual =>
    let paddingLength := (c0 - 65) * 26 + (c1 - 65)
    let result := processBlocks (invertMatrix m) actual
    let trimmed :=
      if paddingLength > 0 then result.take (result.length - paddingLength.toNat)
      else result
    decode3 trimmed
  | _ => []

/-- Source `generateKey(2)` with the calls to `Math.random` abstracted as a
stream `sample` of candidate matrices: the do-while loop retries while the
candidate is not invertible and fewer than 100 attempts were made. -/
def genAux (sample : ℕ → Mat2) (attempts : ℕ) : Mat2 × ℕ :=
  let m := sample attempts
  let a' := attempts + 1
  if isInvertible m = false ∧ a' < 100 then genAux sample a'
  else (m, a')
termination_by 100 - attempts
decreasing_by omega

/-- Source `generateKey(2)`: run the retry loop; if the attempt budget was
exhausted, return the fixed fallback matrix `[[3, 3], [2, 5]]`. -/
def generateKey (sample : ℕ → Mat2) : Mat2 :=
  let r := genAux sample 0
  if r.2 ≥ 100 then ⟨3, 3, 2, 5⟩ else r.1

end HillCipher

namespace CaesarCipher

/-- The JS test `char.match(/[a-z]/i)` on a single UTF-16 unit: ASCII
letter codes 65–90 and 97–122. -/
def isLetter (ch : ℤ) : Bool :=
  decide ((65 ≤ ch ∧ ch ≤ 90) ∨ (97 ≤ ch ∧ ch ≤ 122))

theorem isLetter_iff (ch : ℤ) :
    isLetter ch = true ↔ ((65 ≤ ch ∧ ch ≤ 90) ∨ (97 ≤ ch ∧ ch ≤ 122)) := by
  simp [isLetter]

/-- The loop body of `processText` at normalised shift `s`, with the
source's local variables inlined: an ASCII letter is uppercased (on a
letter, `char === char.toUpperCase()` means code ≤ 90), rotated via
`(alphabetIndex + shift) % 26` over `ALPHABET`, and re-lowercased (+32)
when the input was lowercase; any other character passes through. -/
def procChar (s : ℤ) (ch : ℤ) : ℤ :=
  if isLetter ch then
    if ch ≤ 90 then 65 + ((ch - 65) + s).tmod 26
    else 65 + (((ch - 32) - 65) + s).tmod 26 + 32
  else ch

/-- Source `processText`: normalise the shift with `((shift % 26) + 26) % 26`,
replace it by `26 - shift` when decrypting, then rotate every character. -/
def processText (text : List ℤ) (shift : ℤ) (isEncrypt : Bool) : List ℤ :=
  let s0 := ((shift.tmod 26) + 26).tmod 26
  let s := if isEncrypt then s0 else 26 - s0
  text.map (procChar s)

/-- Source `CaesarCipher.encrypt`. -/
def encrypt (pt : List ℤ) (shift : ℤ) : List ℤ := processText pt shift true

/-- Source `CaesarCipher.decrypt`. -/
def decrypt (ct : List ℤ) (shift : ℤ) : List ℤ := processText ct shift false

end CaesarCipher

namespace VigenereCipher

/-- Modelled from the spec: the repository's encryption manager imports
`VigenereCipher` from `./vigenere`, but that module is absent from the
source tree.  Per spec §4.3 the cipher is a repeating-key rotation whose
key index advances only when a letter is processed (punctuation and
spacing do not consume a key position), case is preserved per character,
the uppercase key letter gives the rotation amount, and an empty key is a
hard error.  Each letter gets the same case-preserving ASCII rotation as
Caesar, by the key letter at the running key index (modulo key length);
decryption rotates by the complement. -/
def process (key : List ℤ) (isEncrypt : Bool) : List ℤ → ℕ → List ℤ
  | [], _ => []
  | ch :: rest, j =>
    if CaesarCipher.isLetter ch then
      CaesarCipher.procChar
        (if isEncrypt then (key.getD (j % key.length) 65 - 65) % 26
         else 26 - (key.getD (j % key.length) 65 - 65) % 26) ch
        :: process key isEncrypt rest (j + 1)
    else ch :: process key isEncrypt rest j

/-- Modelled from the spec: Vigenère encryption; the empty key is a hard
error (`EmptyKey`). -/
def encrypt (pt : List ℤ) (key : List ℤ) : Except CipherErr (List ℤ) :=
  if key = [] then .error .emptyKey else .ok (process key true pt 0)

/-- Modelled from the spec: Vigenère decryption; the empty key is a hard
error (`EmptyKey`). -/
def decrypt (ct : List ℤ) (key : List ℤ) : Except CipherErr (List ℤ) :=
  if key = [] then .error .emptyKey else .ok (process key false ct 0)

end VigenereCipher

/-- The closed algorithm enumeration (`CipherAlgorithm` in `types.ts`). -/
inductive CipherAlgorithm where
  | aes
  | rsa
  | hill
  | vigenere
  | blowfish
  | caesar
deriving DecidableEq, Repr

/-- The security modes (`SecurityMode` in `types.ts`). -/
inductive SecurityMode where
  | high
  | balanced
  | lightweight
deriving DecidableEq, Repr

/-- One entry of the layer manifest (`EncryptionLayer` in `types.ts`);
performance metrics are timing data and are not modelled. -/
structure EncryptionLayer where
  algorithm : CipherAlgorithm
  key : List ℤ
  order : ℕ
deriving DecidableEq, Repr

/-- Outcome of `JSON.parse` on an RSA key string followed by truthiness
tests of `keypair.publicKey` / `keypair.privateKey`: either a
`SyntaxError`, or a parsed value with the two truthiness flags and the
extracted PEM strings.  (Parsing itself is delegated, so it is a field of
`Adapters` below.) -/
inductive RsaParse where
  | parseFailure
  | parsed (hasPublic hasPrivate : Bool) (pub priv : List ℤ)
deriving DecidableEq, Repr

/-- The delegated black-box capabilities (spec §1: AES, RSA-OAEP and
Blowfish are external primitives with a fixed interface whose internal
correctness is assumed), together with the JSON parsers the dispatcher
relies on. -/
structure Adapters where
  aesEnc : List ℤ → List ℤ → SecurityMode → Except CipherErr (List ℤ)
  aesDec : List ℤ → List ℤ → SecurityMode → Except CipherErr (List ℤ)
  rsaEnc : List ℤ → List ℤ → Except CipherErr (List ℤ)
  rsaDec : List ℤ → List ℤ → Except CipherErr (List ℤ)
  blowEnc : List ℤ → List ℤ → Except CipherErr (List ℤ)
  blowDec : List ℤ → List ℤ → Except CipherErr (List ℤ)
  jsonParse : List ℤ → RsaParse
  matrixParse : List ℤ → Option HillCipher.Mat2

/-- JS whitespace code units recognised by `String.prototype.trim`. -/
def isJsSpace (ch : ℤ) : Bool :=
  decide (ch = 32 ∨ (9 ≤ ch ∧ ch ≤ 13) ∨ ch = 160 ∨ ch = 8232 ∨ ch = 8233 ∨ ch = 65279)

/-- The JS test `key.trim() === ""`. -/
def jsTrimEmpty (s : List ℤ) : Bool := s.all isJsSpace

/-- The JS test `key.startsWith("SHIFT-")`. -/
def startsWithShift (key : List ℤ) : Bool :=
  decide (key.take 6 = [83, 72, 73, 70, 84, 45])

/-- Decimal digits prefix for `parseInt`. -/
def digitList (s : List ℤ) : List ℤ :=
  s.takeWhile (fun ch => decide (48 ≤ ch ∧ ch ≤ 57))

/-- Value of a decimal digit string. -/
def digitsToInt (l : List ℤ) : ℤ :=
  l.foldl (fun acc d => acc * 10 + (d - 48)) 0

/-- JS `parseInt` with radix 10 behaviour on the key suffix: skip leading
whitespace, optional sign, then the longest decimal-digit prefix; `NaN`
(here `none`) when no digit follows.  (The hex `0x` prefix of radix-less
`parseInt` is not modelled; Caesar keys are decimal.) -/
def parseIntJS (s : List ℤ) : Option ℤ :=
  let t := s.dropWhile isJsSpace
  match t with
  | [] => none
  | c :: r =>
    if c = 45 then
      if digitList r = [] then none else some (-(digitsToInt (digitList r)))
    else if c = 43 then
      if digitList r = [] then none else some (digitsToInt (digitList r))
    else
      if digitList t = [] then none else some (digitsToInt (digitList t))

/-- The JS key record `Record<string, string>`, keyed by algorithm; later
assignments shadow earlier entries. -/
abbrev KeyMap : Type := List (CipherAlgorithm × List ℤ)

deriving instance DecidableEq for Except

/-- Key lookup (`keys[algorithm]`): `none` models `undefined`. -/
def kmLookup : KeyMap → CipherAlgorithm → Option (List ℤ)
  | [], _ => none
  | (b, v) :: rest, a => if b = a then some v else kmLookup rest a

/-- The JS falsiness test `!keys[algorithm]`: the entry is `undefined` or
the empty string. -/
def keyAbsent (ks : KeyMap) (a : CipherAlgorithm) : Bool :=
  match kmLookup ks a with
  | none => true
  | some v => decide (v = [])

/-- Key actually passed to a layer after up-front validation
(`keys[algorithm]`; validation guarantees presence). -/
def getKeyD (ks : KeyMap) (a : CipherAlgorithm) : List ℤ :=
  (kmLookup ks a).getD []

/-- The expression `existingKeys?.[algorithm] || await this.generateKey(...)`:
reuse a truthy (non-empty) existing key, otherwise generate, with the
random generator abstracted as `gen`. -/
def chooseKey (ek : KeyMap) (gen : CipherAlgorithm → List ℤ) (a : CipherAlgorithm) : List ℤ :=
  match kmLookup ek a with
  | some k => if k = [] then gen a else k
  | none => gen a

/-- Errors raised by `multiLayerDecrypt`: the up-front `MissingKeys`
validation failure (naming the absent algorithms), or a wrapped per-layer
failure recording the 1-based processed position, the chain length, the
algorithm, the mode in effect and the underlying cause. -/
inductive MgrError where
  | missingKeys (algorithms : List CipherAlgorithm)
  | layerFailure (position total : ℕ) (algorithm : CipherAlgorithm)
      (mode : SecurityMode) (cause : CipherErr)
deriving DecidableEq, Repr

namespace EncryptionManager

/-- Source `getRecommendedAlgorithms` (the `default` arm is unreachable
over the closed mode enumeration). -/
def getRecommendedAlgorithms (mode : SecurityMode) : List CipherAlgorithm :=
  match mode with
  | .high => [.aes, .rsa, .vigenere, .blowfish, .caesar]
  | .balanced => [.aes, .vigenere, .blowfish]
  | .lightweight => [.caesar, .vigenere]

/-- Source `EncryptionManager.encrypt`: the dispatch switch.  For `rsa`
the whole `try` block (JSON.parse, the truthiness check of both fields,
and the cipher call) is guarded by one `catch` that rethrows the single
message "Invalid RSA key format: must be valid JSON with publicKey and
privateKey" (`rsaInvalidFormat`).  For `caesar` the `SHIFT-` prefix and
the parsed shift are validated before the cipher runs. -/
def encrypt (A : Adapters) (plaintext : List ℤ) (algorithm : CipherAlgorithm)
    (key : List ℤ) (mode : SecurityMode) : Except CipherErr (List ℤ) :=
  match algorithm with
  | .aes => A.aesEnc plaintext key mode
  | .rsa =>
    match A.jsonParse key with
    | .parsed true true pub _ =>
      match A.rsaEnc plaintext pub with
      | .ok c => .ok c
      | .error _ => .error .rsaInvalidFormat
    | _ => .error .rsaInvalidFormat
  | .hill =>
    match A.matrixParse key with
    | some mtx => .ok (HillCipher.encrypt plaintext mtx)
    | none => .error .hillBadKey
  | .vigenere => VigenereCipher.encrypt plaintext key
  | .blowfish => A.blowEnc plaintext key
  | .caesar =>
    if startsWithShift key then
      match parseIntJS (key.drop 6) with
      | some shift => .ok (CaesarCipher.encrypt plaintext shift)
      | none => .error .invalidCaesarShift
    else .error .invalidCaesarFormat

/-- Source `EncryptionManager.decrypt`: the dispatch switch.  For `rsa`:
an empty or whitespace-only key throws "RSA key is missing" first; a
`SyntaxError` from `JSON.parse` is caught and rethrown as "RSA key is
corrupted" (`rsaCorrupt`); a parsed key with a falsy field throws the
distinct "RSA key is incomplete" (`rsaIncomplete`, rethrown unchanged by
the catch since it is not a `SyntaxError`); cipher errors propagate. -/
def decrypt (A : Adapters) (ciphertext : List ℤ) (algorithm : CipherAlgorithm)
    (key : List ℤ) (mode : SecurityMode) : Except CipherErr (List ℤ) :=
  match algorithm with
  | .aes => A.aesDec ciphertext key mode
  | .rsa =>
    if key = [] ∨ jsTrimEmpty key = true then .error .rsaMissing
    else
      match A.jsonParse key with
      | .parseFailure => .error .rsaCorrupt
      | .parsed hasPublic hasPrivate _ priv =>
        if hasPublic && hasPrivate then A.rsaDec ciphertext priv
        else .error .rsaIncomplete
  | .hill =>
    match A.matrixParse key with
    | some mtx => .ok (HillCipher.decrypt ciphertext mtx)
    | none => .error .hillBadKey
  | .vigenere => VigenereCipher.decrypt ciphertext key
  | .blowfish => A.blowDec ciphertext key
  | .caesar =>
    if startsWithShift key then
      match parseIntJS (key.drop 6) with
      | some shift => .ok (CaesarCipher.decrypt ciphertext shift)
      | none => .error .invalidCaesarShift
    else .error .invalidCaesarFormat

/-- The encryption loop of `multiLayerEncrypt`: for each chain position
(0-based `i`) pick the key (`existingKeys?.[alg] || generateKey(alg)`),
encrypt the running text, record the key and a layer entry with
`order = i + 1`; a thrown error propagates unwrapped. -/
def multiLayerEncryptGo (A : Adapters) (gen : CipherAlgorithm → List ℤ)
    (mode : SecurityMode) (ek : KeyMap) :
    List CipherAlgorithm → List ℤ → KeyMap → List EncryptionLayer → ℕ →
    Except CipherErr (List ℤ × KeyMap × List EncryptionLayer)
  | [], text, keys, layers, _ => .ok (text, keys, layers)
  | alg :: rest, text, keys, layers, i =>
    match encrypt A text alg (chooseKey ek gen alg) mode with
    | .error e => .error e
    | .ok c =>
      multiLayerEncryptGo A gen mode ek rest c ((alg, chooseKey ek gen alg) :: keys)
        (layers ++ [⟨alg, chooseKey ek gen alg, i + 1⟩]) (i + 1)

/-- Source `multiLayerEncrypt`, with `Math.random`-based key generation
abstracted as `gen` and the optional `existingKeys` argument as `ek`
(the empty map models the argument being omitted). -/
def multiLayerEncrypt (A : Adapters) (gen : CipherAlgorithm → List ℤ)
    (plaintext : List ℤ) (algorithms : List CipherAlgorithm)
    (mode : SecurityMode) (ek : KeyMap) :
    Except CipherErr (List ℤ × KeyMap × List EncryptionLayer) :=
  multiLayerEncryptGo A gen mode ek algorithms plaintext [] [] 0

/-- The decryption loop of `multiLayerDecrypt` over the reversed chain:
`pos` counts already-processed layers, so the layer processed next is
number `pos + 1` of `total` (the source's `algorithms.length - i`); a
failure is wrapped as a `layerFailure` carrying position, algorithm and
mode, and stops the loop. -/
def multiLayerDecryptGo (A : Adapters) (mode : SecurityMode) (keys : KeyMap)
    (total : ℕ) :
    List CipherAlgorithm → List ℤ → List EncryptionLayer → ℕ →
    Except MgrError (List ℤ × List EncryptionLayer)
  | [], text, layers, _ => .ok (text, layers)
  | alg :: revRest, text, layers, pos =>
    match decrypt A text alg (getKeyD keys alg) mode with
    | .error e => .error (.layerFailure (pos + 1) total alg mode e)
    | .ok t =>
      multiLayerDecryptGo A mode keys total revRest t
        (layers ++ [⟨alg, getKeyD keys alg, pos + 1⟩]) (pos + 1)

/-- Source `multiLayerDecrypt`: first the up-front validation collecting
every chain algorithm whose key is absent (`!keys[algorithm]`) and failing
with `MissingKeys` naming all of them; then the strictly-reverse
decryption loop. -/
def multiLayerDecrypt (A : Adapters) (ciphertext : List ℤ)
    (algorithms : List CipherAlgorithm) (keys : KeyMap) (mode : SecurityMode) :
    Except MgrError (List ℤ × List EncryptionLayer) :=
  let missingKeys := algorithms.filter (fun a => keyAbsent keys a)
  if missingKeys = [] then
    multiLayerDecryptGo A mode keys algorithms.length algorithms.reverse ciphertext [] 0
  else .error (.missingKeys missingKeys)

end EncryptionManager

/-- Reference fold used to state ordering properties: apply the
per-algorithm decrypt dispatch along a list of algorithms, threading the
running text, with no bookkeeping. -/
def runLayersDec (A : Adapters) (mode : SecurityMode) (keys : KeyMap) :
    List CipherAlgorithm → List ℤ → Except CipherErr (List ℤ)
  | [], t => .ok t
  | a :: rest, t =>
    match EncryptionManager.decrypt A t a (getKeyD keys a) mode with
    | .error e => .error e
    | .ok t2 => runLayersDec A mode keys rest t2

/-- The per-algorithm encrypt dispatch at `a` is inverted by the decrypt
dispatch with the same key and mode. -/
def DispatchInverse (A : Adapters) (mode : SecurityMode) (a : CipherAlgorithm) : Prop :=
  ∀ t k c, EncryptionManager.encrypt A t a k mode = .ok c →
    EncryptionManager.decrypt A c a k mode = .ok t

/-- Spec §1 assumption on the delegated AES primitive: decryption with the
same key and mode inverts encryption. -/
def AesRoundtrip (A : Adapters) : Prop :=
  ∀ t k mode c, A.aesEnc t k mode = .ok c → A.aesDec c k mode = .ok t

/-- Spec §1 assumption on the delegated Blowfish primitive. -/
def BlowRoundtrip (A : Adapters) : Prop :=
  ∀ t k c, A.blowEnc t k = .ok c → A.blowDec c k = .ok t

/-- Spec §1 assumption on the delegated RSA primitive: for a key string
parsing to a (public, private) pair, decryption with the private key
inverts encryption with the public key. -/
def RsaRoundtrip (A : Adapters) : Prop :=
  ∀ k pub priv, A.jsonParse k = .parsed true true pub priv →
    ∀ t c, A.rsaEnc t pub = .ok c → A.rsaDec c priv = .ok t

/-- Real `JSON.parse` behaviour assumed of the parse oracle: a
whitespace-only string (in particular the empty string) is a
`SyntaxError`. -/
def JsonBlankIsError (A : Adapters) : Prop :=
  ∀ s : List ℤ, jsTrimEmpty s = true → A.jsonParse s = .parseFailure

/-- Per-position character preservation: a non-letter is emitted
unchanged; a letter stays a letter of the same case (among ASCII letters,
uppercase means code ≤ 90). -/
def CharPreserved (cin cout : ℤ) : Prop :=
  (CaesarCipher.isLetter cin = false → cout = cin) ∧
  (CaesarCipher.isLetter cin = true →
    CaesarCipher.isLetter cout = true ∧ (cin ≤ 90 ↔ cout ≤ 90))

/-- Output of a text transform preserves length, non-letters (in place)
and letter case. -/
def PreservedAt (inp out : List ℤ) : Prop :=
  out.length = inp.length ∧
  ∀ i < inp.length, CharPreserved (inp.getD i 0) (out.getD i 0)

/-- The layer manifest recorded by the decryption loop along a processed
algorithm list starting after `pos` already-processed layers. -/
def mkLayers (keys : KeyMap) : List CipherAlgorithm → ℕ → List EncryptionLayer
  | [], _ => []
  | a :: rest, pos => ⟨a, getKeyD keys a, pos + 1⟩ :: mkLayers keys rest (pos + 1)

/-- A concrete adapter pack for instantiating the black-box assumptions:
the delegated primitives are identities (which trivially round-trip), the
JSON oracle parses only the one-character key string `"P"` (code 80) into
a complete key pair, and everything else — in particular any
whitespace-only string — is a `SyntaxError`. -/
def idAdapters : Adapters where
  aesEnc := fun t _ _ => .ok t
  aesDec := fun t _ _ => .ok t
  rsaEnc := fun t _ => .ok t
  rsaDec := fun t _ => .ok t
  blowEnc := fun t _ => .ok t
  blowDec := fun t _ => .ok t
  jsonParse := fun s => if s = [80] then .parsed true true [80] [81] else .parseFailure
  matrixParse := fun _ => none

/-- A concrete adapter pack whose JSON oracle mirrors real `JSON.parse`
on two key strings: `"{}"` (codes [123, 125]) parses to an object with
both fields missing, and everything else — in particular the malformed
`"{"` (code [123]) and any whitespace-only string — is a `SyntaxError`. -/
def jsonAdapters : Adapters where
  aesEnc := fun t _ _ => .ok t
  aesDec := fun t _ _ => .ok t
  rsaEnc := fun t _ => .ok t
  rsaDec := fun t _ => .ok t
  blowEnc := fun t _ => .ok t
  blowDec := fun t _ => .ok t
  jsonParse := fun s => if s = [123, 125] then .parsed false false [] [] else .parseFailure
  matrixParse := fun _ => none

/-- A concrete key generator: `"SHIFT-7"` for Caesar, `"KEY"` for
Vigenère, `"P"` for RSA, `"A"` otherwise. -/
def genKeys0 : CipherAlgorithm → List ℤ
  | .caesar => [83, 72, 73, 70, 84, 45, 55]
  | .vigenere => [75, 69, 89]
  | .rsa => [80]
  | _ => [65]

-- DEFS_ANCHOR (more definitions are inserted above this line)

/-! ### Theorems -/

/-- The truncated remainder by 26 is greater than -26 (lower bound used to
bridge the JS pattern `((x % 26) + 26) % 26` to the Euclidean remainder). -/
theorem tmod26_lower (z : ℤ) : -26 < z.tmod 26 := by
  cases z with
  | ofNat n =>
    have h : (0 : ℤ) ≤ Int.tmod (Int.ofNat n) 26 := Int.tmod_nonneg _ (Int.ofNat_nonneg n)
    omega
  | negSucc n =>
    show -26 < Int.tmod (Int.negSucc n) (Int.ofNat 26)
    unfold Int.tmod
    have h : (n + 1) % 26 < 26 := Nat.mod_lt _ (by omega)
    simp only [Int.ofNat_eq_coe]
    omega

/-- The JS idiom `((z % 26) + 26) % 26` computes the Euclidean remainder. -/
theorem jsmod26_eq_emod (z : ℤ) : ((z.tmod 26) + 26).tmod 26 = z.emod 26 := by
  have hlow : -26 < z.tmod 26 := tmod26_lower z
  have hnn : (0 : ℤ) ≤ z.tmod 26 + 26 := by omega
  rw [Int.tmod_eq_emod hnn (by omega)]
  have h1 : (z.tmod 26 + 26) % 26 = z.tmod 26 % 26 := by
    have h0 := Int.add_mul_emod_self_left (z.tmod 26) 26 1
    simp only [Int.mul_one] at h0
    exact h0
  rw [h1, Int.tmod_def]
  have h2 : z - 26 * z.tdiv 26 = z + 26 * (-(z.tdiv 26)) := by ring
  rw [h2, Int.add_mul_emod_self_left]
  rfl

namespace HillCipher

theorem encodeChar_mem_bounds {code : ℤ} (h0 : 0 ≤ code) (h1 : code ≤ 17575) :
    ∀ x ∈ encodeChar code, 65 ≤ x ∧ x ≤ 90 := by
  have ht1 : code.tdiv 676 = code / 676 := Int.tdiv_eq_ediv h0 (by omega)
  have ht2 : code.tmod 676 = code % 676 := Int.tmod_eq_emod h0 (by omega)
  have ht3 : code.tmod 26 = code % 26 := Int.tmod_eq_emod h0 (by omega)
  have ht4 : (code % 676).tdiv 26 = (code % 676) / 26 :=
    Int.tdiv_eq_ediv (Int.emod_nonneg _ (by omega)) (by omega)
  intro x hx
  simp only [encodeChar, List.mem_cons, List.not_mem_nil, or_false] at hx
  rcases hx with rfl | rfl | rfl
  · rw [ht1]; omega
  · rw [ht2, ht4]; omega
  · rw [ht3]; omega

theorem encode_mem_bounds : ∀ pt : List ℤ, (∀ c ∈ pt, 0 ≤ c ∧ c ≤ 17575) →
    ∀ x ∈ encode pt, 65 ≤ x ∧ x ≤ 90
  | [], _ => by intro x hx; simp [encode] at hx
  | code :: rest, h => by
    intro x hx
    simp only [encode, List.mem_append] at hx
    rcases hx with hx | hx
    · exact encodeChar_mem_bounds (h code (by simp)).1 (h code (by simp)).2 x hx
    · exact encode_mem_bounds rest (fun c hc => h c (by simp [hc])) x hx

theorem encode_length : ∀ pt : List ℤ, (encode pt).length = 3 * pt.length
  | [] => by simp [encode]
  | code :: rest => by
    simp only [encode, encodeChar, List.length_append, List.length_cons]
    rw [encode_length rest]
    simp [List.length]
    ring

theorem processBlocks_length (m : Mat2) : ∀ l : List ℤ, (processBlocks m l).length = l.length
  | [] => by simp [processBlocks]
  | [x] => by simp [processBlocks]
  | x :: y :: rest => by
    simp only [processBlocks, List.length_cons]
    rw [processBlocks_length m rest]

theorem mulVec_bounds (m : Mat2) (hm : 0 ≤ m.a ∧ 0 ≤ m.b ∧ 0 ≤ m.c ∧ 0 ≤ m.d)
    (x y : ℤ) (hx : 0 ≤ x) (hy : 0 ≤ y) :
    (0 ≤ (mulVec m x y).1 ∧ (mulVec m x y).1 < 26) ∧
    (0 ≤ (mulVec m x y).2 ∧ (mulVec m x y).2 < 26) := by
  obtain ⟨ha, hb, hc, hd⟩ := hm
  have h1 : 0 ≤ m.a * x + m.b * y := by positivity
  have h2 : 0 ≤ m.c * x + m.d * y := by positivity
  simp only [mulVec]
  rw [Int.tmod_eq_emod h1 (by omega), Int.tmod_eq_emod h2 (by omega)]
  exact ⟨⟨Int.emod_nonneg _ (by omega), Int.emod_lt_of_pos _ (by omega)⟩,
    ⟨Int.emod_nonneg _ (by omega), Int.emod_lt_of_pos _ (by omega)⟩⟩

theorem processBlocks_bounds (m : Mat2) (hm : 0 ≤ m.a ∧ 0 ≤ m.b ∧ 0 ≤ m.c ∧ 0 ≤ m.d) :
    ∀ l : List ℤ, (∀ x ∈ l, 65 ≤ x ∧ x ≤ 90) →
    ∀ z ∈ processBlocks m l, 65 ≤ z ∧ z ≤ 90
  | [], _ => by intro z hz; simp [processBlocks] at hz
  | [x], h => by
    intro z hz
    simp only [processBlocks, List.mem_singleton] at hz
    exact hz ▸ h x (by simp)
  | x :: y :: rest, h => by
    intro z hz
    have hx := h x (by simp)
    have hy := h y (by simp)
    have hmv := mulVec_bounds m hm (x - 65) (y - 65) (by omega) (by omega)
    simp only [processBlocks, List.mem_cons] at hz
    rcases hz with rfl | rfl | hz
    · omega
    · omega
    · exact processBlocks_bounds m hm rest (fun w hw => h w (by simp [hw])) z hz

theorem modInverse_fin_correct : ∀ a : Fin 26, Nat.gcd a.val 26 = 1 →
    ((a.val : ℤ) * modInverse (a.val : ℤ) 26) % 26 = 1 := by decide

theorem modInverse_correct {D : ℤ} (h0 : 0 ≤ D) (h1 : D < 26) (hg : Int.gcd D 26 = 1) :
    (D * modInverse D 26) % 26 = 1 := by
  have hna : D.natAbs = D.toNat := by omega
  have hD : ((D.toNat : ℕ) : ℤ) = D := Int.toNat_of_nonneg h0
  have hn : D.toNat < 26 := by omega
  have hgn : Nat.gcd D.toNat 26 = 1 := by
    rw [← hna]; exact hg
  have := modInverse_fin_correct ⟨D.toNat, hn⟩ hgn
  simpa [hD] using this

theorem modInverse_fin_fallback : ∀ a : Fin 26, Nat.gcd a.val 26 ≠ 1 →
    modInverse (a.val : ℤ) 26 = 1 := by decide

theorem modInverse_fallback {D : ℤ} (h0 : 0 ≤ D) (h1 : D < 26) (hg : Int.gcd D 26 ≠ 1) :
    modInverse D 26 = 1 := by
  have hna : D.natAbs = D.toNat := by omega
  have hD : ((D.toNat : ℕ) : ℤ) = D := Int.toNat_of_nonneg h0
  have hn : D.toNat < 26 := by omega
  have hgn : Nat.gcd D.toNat 26 ≠ 1 := by
    rw [← hna]; exact hg
  have := modInverse_fin_fallback ⟨D.toNat, hn⟩ hgn
  simpa [hD] using this

theorem detModOf_eq_emod (m : Mat2) : detModOf m = (determinant m) % 26 :=
  jsmod26_eq_emod (determinant m)

theorem detModOf_nonneg (m : Mat2) : 0 ≤ detModOf m := by
  rw [detModOf_eq_emod]; exact Int.emod_nonneg _ (by omega)

theorem detModOf_lt (m : Mat2) : detModOf m < 26 := by
  rw [detModOf_eq_emod]; exact Int.emod_lt_of_pos _ (by omega)

theorem mulVec_inv (m : Mat2)
    (hm : 0 ≤ m.a ∧ 0 ≤ m.b ∧ 0 ≤ m.c ∧ 0 ≤ m.d)
    (hinv : isInvertible m = true)
    (u v : ℤ) (hu0 : 0 ≤ u) (hu1 : u < 26) (hv0 : 0 ≤ v) (hv1 : v < 26) :
    mulVec (invertMatrix m) (mulVec m u v).1 (mulVec m u v).2 = (u, v) := by
  obtain ⟨ha, hb, hc, hd⟩ := hm
  have hg : Int.gcd (detModOf m) 26 = 1 := by
    simpa [isInvertible] using hinv
  have hkey : (detModOf m * modInverse (detModOf m) 26) % 26 = 1 :=
    modInverse_correct (detModOf_nonneg m) (detModOf_lt m) hg
  have hmodeq : ∀ x : ℤ, Int.ModEq 26 (x % 26) x := fun x => Int.emod_emod x 26
  have he1nn : 0 ≤ m.a * u + m.b * v := by positivity
  have he2nn : 0 ≤ m.c * u + m.d * v := by positivity
  have he1 : (mulVec m u v).1 = (m.a * u + m.b * v) % 26 := by
    simp only [mulVec]; exact Int.tmod_eq_emod he1nn (by omega)
  have he2 : (mulVec m u v).2 = (m.c * u + m.d * v) % 26 := by
    simp only [mulVec]; exact Int.tmod_eq_emod he2nn (by omega)
  have he1b : 0 ≤ (mulVec m u v).1 ∧ (mulVec m u v).1 < 26 := by
    rw [he1]; exact ⟨Int.emod_nonneg _ (by omega), Int.emod_lt_of_pos _ (by omega)⟩
  have he2b : 0 ≤ (mulVec m u v).2 ∧ (mulVec m u v).2 < 26 := by
    rw [he2]; exact ⟨Int.emod_nonneg _ (by omega), Int.emod_lt_of_pos _ (by omega)⟩
  set ι := modInverse (detModOf m) 26 with hidef
  have hA : (invertMatrix m).a = (m.d * ι) % 26 := by
    simp only [invertMatrix, hidef]; exact jsmod26_eq_emod _
  have hB : (invertMatrix m).b = (-m.b * ι) % 26 := by
    simp only [invertMatrix, hidef]; exact jsmod26_eq_emod _
  have hC : (invertMatrix m).c = (-m.c * ι) % 26 := by
    simp only [invertMatrix, hidef]; exact jsmod26_eq_emod _
  have hD : (invertMatrix m).d = (m.a * ι) % 26 := by
    simp only [invertMatrix, hidef]; exact jsmod26_eq_emod _
  have hAnn : 0 ≤ (invertMatrix m).a := by rw [hA]; exact Int.emod_nonneg _ (by omega)
  have hBnn : 0 ≤ (invertMatrix m).b := by rw [hB]; exact Int.emod_nonneg _ (by omega)
  have hCnn : 0 ≤ (invertMatrix m).c := by rw [hC]; exact Int.emod_nonneg _ (by omega)
  have hDnn : 0 ≤ (invertMatrix m).d := by rw [hD]; exact Int.emod_nonneg _ (by omega)
  have hdetmod : Int.ModEq 26 (determinant m) (detModOf m) :=
    (detModOf_eq_emod m ▸ hmodeq (determinant m)).symm
  have hunit : Int.ModEq 26 (detModOf m * ι) 1 := by
    show (detModOf m * ι) % 26 = 1 % 26
    rw [hkey]; decide
  -- first output component
  have hc1 : Int.ModEq 26 ((invertMatrix m).a * (mulVec m u v).1 +
      (invertMatrix m).b * (mulVec m u v).2) u := by
    have step1 : Int.ModEq 26 ((invertMatrix m).a * (mulVec m u v).1 +
        (invertMatrix m).b * (mulVec m u v).2)
        ((m.d * ι) * (m.a * u + m.b * v) + (-m.b * ι) * (m.c * u + m.d * v)) := by
      refine Int.ModEq.add (Int.ModEq.mul ?_ ?_) (Int.ModEq.mul ?_ ?_)
      · rw [hA]; exact hmodeq _
      · rw [he1]; exact hmodeq _
      · rw [hB]; exact hmodeq _
      · rw [he2]; exact hmodeq _
    have step2 : (m.d * ι) * (m.a * u + m.b * v) + (-m.b * ι) * (m.c * u + m.d * v)
        = determinant m * ι * u := by
      simp only [determinant]; ring
    have step3 : Int.ModEq 26 (determinant m * ι * u) (detModOf m * ι * u) :=
      Int.ModEq.mul (Int.ModEq.mul hdetmod (Int.ModEq.refl ι)) (Int.ModEq.refl u)
    have step4 : Int.ModEq 26 (detModOf m * ι * u) u := by
      have := Int.ModEq.mul hunit (Int.ModEq.refl u)
      simpa using this
    exact ((step1.trans (step2 ▸ Int.ModEq.refl _)).trans step3).trans step4
  -- second output component
  have hc2 : Int.ModEq 26 ((invertMatrix m).c * (mulVec m u v).1 +
      (invertMatrix m).d * (mulVec m u v).2) v := by
    have step1 : Int.ModEq 26 ((invertMatrix m).c * (mulVec m u v).1 +
        (invertMatrix m).d * (mulVec m u v).2)
        ((-m.c * ι) * (m.a * u + m.b * v) + (m.a * ι) * (m.c * u + m.d * v)) := by
      refine Int.ModEq.add (Int.ModEq.mul ?_ ?_) (Int.ModEq.mul ?_ ?_)
      · rw [hC]; exact hmodeq _
      · rw [he1]; exact hmodeq _
      · rw [hD]; exact hmodeq _
      · rw [he2]; exact hmodeq _
    have step2 : (-m.c * ι) * (m.a * u + m.b * v) + (m.a * ι) * (m.c * u + m.d * v)
        = determinant m * ι * v := by
      simp only [determinant]; ring
    have step3 : Int.ModEq 26 (determinant m * ι * v) (detModOf m * ι * v) :=
      Int.ModEq.mul (Int.ModEq.mul hdetmod (Int.ModEq.refl ι)) (Int.ModEq.refl v)
    have step4 : Int.ModEq 26 (detModOf m * ι * v) v := by
      have := Int.ModEq.mul hunit (Int.ModEq.refl v)
      simpa using this
    exact ((step1.trans (step2 ▸ Int.ModEq.refl _)).trans step3).trans step4
  have hx1nn : 0 ≤ (invertMatrix m).a * (mulVec m u v).1 + (invertMatrix m).b * (mulVec m u v).2 := by
    have := he1b.1; have := he2b.1; positivity
  have hx2nn : 0 ≤ (invertMatrix m).c * (mulVec m u v).1 + (invertMatrix m).d * (mulVec m u v).2 := by
    have := he1b.1; have := he2b.1; positivity
  have hu' : u % 26 = u := Int.emod_eq_of_lt hu0 hu1
  have hv' : v % 26 = v := Int.emod_eq_of_lt hv0 hv1
  have e1 : ((invertMatrix m).a * (mulVec m u v).1 +
      (invertMatrix m).b * (mulVec m u v).2) % 26 = u := by
    have h := hc1
    unfold Int.ModEq at h
    rw [hu'] at h
    exact h
  have e2 : ((invertMatrix m).c * (mulVec m u v).1 +
      (invertMatrix m).d * (mulVec m u v).2) % 26 = v := by
    have h := hc2
    unfold Int.ModEq at h
    rw [hv'] at h
    exact h
  have g1 : (mulVec (invertMatrix m) (mulVec m u v).1 (mulVec m u v).2).1 = u := by
    show ((invertMatrix m).a * (mulVec m u v).1 +
        (invertMatrix m).b * (mulVec m u v).2).tmod 26 = u
    rw [Int.tmod_eq_emod hx1nn (by omega)]
    exact e1
  have g2 : (mulVec (invertMatrix m) (mulVec m u v).1 (mulVec m u v).2).2 = v := by
    show ((invertMatrix m).c * (mulVec m u v).1 +
        (invertMatrix m).d * (mulVec m u v).2).tmod 26 = v
    rw [Int.tmod_eq_emod hx2nn (by omega)]
    exact e2
  exact Prod.ext g1 g2

theorem processBlocks_inverse (m : Mat2)
    (hm : 0 ≤ m.a ∧ 0 ≤ m.b ∧ 0 ≤ m.c ∧ 0 ≤ m.d)
    (hinv : isInvertible m = true) :
    ∀ l : List ℤ, (∀ x ∈ l, 65 ≤ x ∧ x ≤ 90) → l.length % 2 = 0 →
    processBlocks (invertMatrix m) (processBlocks m l) = l
  | [] => by intro _ _; simp [processBlocks]
  | [x] => by intro _ h; simp at h
  | x :: y :: rest => by
    intro hb he
    have hx := hb x (by simp)
    have hy := hb y (by simp)
    have hmv := mulVec_inv m hm hinv (x - 65) (y - 65)
      (by omega) (by omega) (by omega) (by omega)
    simp only [processBlocks]
    have h1 : (mulVec m (x - 65) (y - 65)).1 + 65 - 65 = (mulVec m (x - 65) (y - 65)).1 := by omega
    have h2 : (mulVec m (x - 65) (y - 65)).2 + 65 - 65 = (mulVec m (x - 65) (y - 65)).2 := by omega
    rw [h1, h2, hmv]
    have hrest := processBlocks_inverse m hm hinv rest
      (fun w hw => hb w (by simp [hw])) (by simp at he ⊢; omega)
    rw [hrest]
    show (x - 65 + 65) :: (y - 65 + 65) :: rest = x :: y :: rest
    have hx' : x - 65 + 65 = x := by omega
    have hy' : y - 65 + 65 = y := by omega
    rw [hx', hy']

theorem decode3_encode : ∀ pt : List ℤ, (∀ c ∈ pt, 0 ≤ c) →
    decode3 (encode pt) = pt
  | [], _ => by simp [encode, decode3]
  | code :: rest, h => by
    have h0 : 0 ≤ code := h code (by simp)
    have ht1 : code.tdiv 676 = code / 676 := Int.tdiv_eq_ediv h0 (by omega)
    have ht2 : code.tmod 676 = code % 676 := Int.tmod_eq_emod h0 (by omega)
    have ht3 : code.tmod 26 = code % 26 := Int.tmod_eq_emod h0 (by omega)
    have ht4 : (code % 676).tdiv 26 = (code % 676) / 26 :=
      Int.tdiv_eq_ediv (Int.emod_nonneg _ (by omega)) (by omega)
    simp only [encode, encodeChar, List.cons_append, List.append_eq, List.nil_append, decode3]
    rw [decode3_encode rest (fun c hc => h c (by simp [hc]))]
    congr 1
    rw [ht1, ht2, ht3, ht4]
    omega

theorem hill_roundtrip_core (m : Mat2) (pt : List ℤ)
    (hm : (0 ≤ m.a ∧ m.a ≤ 25) ∧ (0 ≤ m.b ∧ m.b ≤ 25) ∧
          (0 ≤ m.c ∧ m.c ≤ 25) ∧ (0 ≤ m.d ∧ m.d ≤ 25))
    (hinv : isInvertible m = true)
    (hpt : ∀ c ∈ pt, 0 ≤ c ∧ c ≤ 17575) :
    decrypt (encrypt pt m) m = pt := by
  obtain ⟨⟨ha0, ha1⟩, ⟨hb0, hb1⟩, ⟨hc0, hc1⟩, ⟨hd0, hd1⟩⟩ := hm
  have hmnn : 0 ≤ m.a ∧ 0 ≤ m.b ∧ 0 ≤ m.c ∧ 0 ≤ m.d := ⟨ha0, hb0, hc0, hd0⟩
  have hEb := encode_mem_bounds pt hpt
  have hdec := decode3_encode pt (fun c hc => (hpt c hc).1)
  rcases Nat.mod_two_eq_zero_or_one (encode pt).length with hL | hL
  · -- the 3-letter encoding already has even length: padding 0
    have hPv : (2 - (encode pt).length % 2) % 2 = 0 := by rw [hL]
    have hform : encrypt pt m = 65 :: 65 :: processBlocks m (encode pt) := by
      simp only [encrypt, hPv, List.replicate, List.append_nil]
      norm_num
    have hblocks : processBlocks (invertMatrix m) (processBlocks m (encode pt)) = encode pt :=
      processBlocks_inverse m hmnn hinv (encode pt) hEb hL
    rw [hform]
    simp only [decrypt]
    norm_num
    rw [hblocks, hdec]
  · -- odd encoded length: one sentinel letter of padding
    have hPv : (2 - (encode pt).length % 2) % 2 = 1 := by rw [hL]
    have hform : encrypt pt m = 65 :: 66 :: processBlocks m (encode pt ++ [88]) := by
      simp only [encrypt, hPv, List.replicate, List.length_append, List.length_cons,
        List.length_nil]
      norm_num
    have hpb : ∀ x ∈ encode pt ++ [88], 65 ≤ x ∧ x ≤ 90 := by
      intro x hx
      rcases List.mem_append.1 hx with h | h
      · exact hEb x h
      · simp at h; omega
    have hpe : (encode pt ++ [88]).length % 2 = 0 := by
      simp only [List.length_append, List.length_cons, List.length_nil]
      omega
    have hblocks : processBlocks (invertMatrix m) (processBlocks m (encode pt ++ [88]))
        = encode pt ++ [88] :=
      processBlocks_inverse m hmnn hinv (encode pt ++ [88]) hpb hpe
    rw [hform]
    simp only [decrypt]
    norm_num
    rw [hblocks]
    have hlen : (encode pt ++ [88]).length = (encode pt).length + 1 := by simp
    have htake : (encode pt ++ [88]).take ((encode pt ++ [88]).length - 1) = encode pt := by
      rw [hlen]
      simp only [Nat.add_sub_cancel]
      exact List.take_left (encode pt) [88]
    rw [htake, hdec]

theorem hill_encrypt_shape_core (m : Mat2) (pt : List ℤ)
    (hm : 0 ≤ m.a ∧ 0 ≤ m.b ∧ 0 ≤ m.c ∧ 0 ≤ m.d)
    (hpt : ∀ c ∈ pt, 0 ≤ c ∧ c ≤ 17575) :
    (∀ x ∈ encrypt pt m, 65 ≤ x ∧ x ≤ 90) ∧
    (encrypt pt m).length = 2 + (3 * pt.length + (2 - (3 * pt.length) % 2) % 2) := by
  have hEb := encode_mem_bounds pt hpt
  have hElen := encode_length pt
  constructor
  · intro x hx
    rcases Nat.mod_two_eq_zero_or_one (encode pt).length with hL | hL
    · have hPv : (2 - (encode pt).length % 2) % 2 = 0 := by rw [hL]
      have hform : encrypt pt m = 65 :: 65 :: processBlocks m (encode pt) := by
        simp only [encrypt, hPv, List.replicate, List.append_nil]
        norm_num
      rw [hform] at hx
      simp only [List.mem_cons] at hx
      rcases hx with rfl | rfl | hx
      · omega
      · omega
      · exact processBlocks_bounds m hm (encode pt) hEb x hx
    · have hPv : (2 - (encode pt).length % 2) % 2 = 1 := by rw [hL]
      have hform : encrypt pt m = 65 :: 66 :: processBlocks m (encode pt ++ [88]) := by
        simp only [encrypt, hPv, List.replicate, List.length_append, List.length_cons,
          List.length_nil]
        norm_num
      rw [hform] at hx
      simp only [List.mem_cons] at hx
      have hpb : ∀ w ∈ encode pt ++ [88], 65 ≤ w ∧ w ≤ 90 := by
        intro w hw
        rcases List.mem_append.1 hw with h | h
        · exact hEb w h
        · simp at h; omega
      rcases hx with rfl | rfl | hx
      · omega
      · omega
      · exact processBlocks_bounds m hm (encode pt ++ [88]) hpb x hx
  · simp only [encrypt, List.length_cons]
    rw [processBlocks_length]
    simp only [List.length_append, List.length_replicate]
    omega

/-- Non-invertible key: the inner scan of `modInverse` finds no inverse and
the function silently returns `1`; `invertMatrix` then degenerates to the
plain adjugate reduced mod 26, so `decrypt` still goes through. -/
theorem hill_noninvertible_no_failure (m : Mat2)
    (hg : Int.gcd (detModOf m) 26 ≠ 1) :
    modInverse (detModOf m) 26 = 1 ∧
    invertMatrix m = ⟨m.d % 26, (-m.b) % 26, (-m.c) % 26, m.a % 26⟩ := by
  have hfb : modInverse (detModOf m) 26 = 1 :=
    modInverse_fallback (detModOf_nonneg m) (detModOf_lt m) hg
  refine ⟨hfb, ?_⟩
  simp only [invertMatrix, hfb, mul_one]
  congr 1 <;> exact jsmod26_eq_emod _

theorem genAux_spec (sample : ℕ → Mat2) (attempts : ℕ) :
    isInvertible (genAux sample attempts).1 = true ∨ (genAux sample attempts).2 ≥ 100 := by
  rw [genAux]
  split
  · exact genAux_spec sample (attempts + 1)
  · next h =>
    push_neg at h
    by_cases hi : isInvertible (sample attempts) = false
    · right
      have := h hi
      simpa using this
    · left
      simpa using hi
termination_by 100 - attempts
decreasing_by
  rename_i h
  omega

theorem generateKey_invertible (sample : ℕ → Mat2) :
    isInvertible (generateKey sample) = true := by
  rw [generateKey]
  split
  · decide
  · next h =>
    rcases genAux_spec sample 0 with hok | hcap
    · exact hok
    · omega


end HillCipher

namespace CaesarCipher

theorem procChar_nonletter (s ch : ℤ) (h : isLetter ch = false) :
    procChar s ch = ch := by
  simp [procChar, h]

theorem procChar_upper_eq (s ch : ℤ) (h1 : 65 ≤ ch) (h2 : ch ≤ 90) :
    procChar s ch = 65 + ((ch - 65) + s).tmod 26 := by
  have hB : isLetter ch = true := by rw [isLetter_iff]; omega
  simp [procChar, hB, h2]

theorem procChar_lower_eq (s ch : ℤ) (h1 : 97 ≤ ch) (h2 : ch ≤ 122) :
    procChar s ch = 65 + (((ch - 32) - 65) + s).tmod 26 + 32 := by
  have hB : isLetter ch = true := by rw [isLetter_iff]; omega
  have hnup : ¬(ch ≤ 90) := by omega
  simp [procChar, hB, hnup]

theorem procChar_letter_shape (s ch : ℤ) (hs0 : 0 ≤ s) (hs1 : s ≤ 26)
    (h : isLetter ch = true) :
    isLetter (procChar s ch) = true ∧ (ch ≤ 90 ↔ procChar s ch ≤ 90) := by
  rw [isLetter_iff] at h
  by_cases hup : ch ≤ 90
  · have hch : 65 ≤ ch ∧ ch ≤ 90 := by rcases h with h | h <;> omega
    rw [procChar_upper_eq s ch hch.1 hch.2]
    rw [Int.tmod_eq_emod (by omega) (by omega)]
    have hb : 0 ≤ ((ch - 65) + s) % 26 ∧ ((ch - 65) + s) % 26 < 26 :=
      ⟨Int.emod_nonneg _ (by omega), Int.emod_lt_of_pos _ (by omega)⟩
    rw [isLetter_iff]
    omega
  · have hch : 97 ≤ ch ∧ ch ≤ 122 := by rcases h with h | h <;> omega
    rw [procChar_lower_eq s ch hch.1 hch.2]
    rw [Int.tmod_eq_emod (by omega) (by omega)]
    have hb : 0 ≤ (((ch - 32) - 65) + s) % 26 ∧ (((ch - 32) - 65) + s) % 26 < 26 :=
      ⟨Int.emod_nonneg _ (by omega), Int.emod_lt_of_pos _ (by omega)⟩
    rw [isLetter_iff]
    omega

theorem procChar_roundtrip (s0 ch : ℤ) (hs0 : 0 ≤ s0) (hs1 : s0 ≤ 25) :
    procChar (26 - s0) (procChar s0 ch) = ch := by
  by_cases hl : isLetter ch = true
  · rw [isLetter_iff] at hl
    by_cases hup : ch ≤ 90
    · have hch : 65 ≤ ch ∧ ch ≤ 90 := by rcases hl with h | h <;> omega
      rw [procChar_upper_eq s0 ch hch.1 hch.2]
      rw [Int.tmod_eq_emod (by omega) (by omega)]
      have hb : 0 ≤ ((ch - 65) + s0) % 26 ∧ ((ch - 65) + s0) % 26 < 26 :=
        ⟨Int.emod_nonneg _ (by omega), Int.emod_lt_of_pos _ (by omega)⟩
      rw [procChar_upper_eq (26 - s0) _ (by omega) (by omega)]
      rw [Int.tmod_eq_emod (by omega) (by omega)]
      omega
    · have hch : 97 ≤ ch ∧ ch ≤ 122 := by rcases hl with h | h <;> omega
      rw [procChar_lower_eq s0 ch hch.1 hch.2]
      rw [Int.tmod_eq_emod (by omega) (by omega)]
      have hb : 0 ≤ (((ch - 32) - 65) + s0) % 26 ∧ (((ch - 32) - 65) + s0) % 26 < 26 :=
        ⟨Int.emod_nonneg _ (by omega), Int.emod_lt_of_pos _ (by omega)⟩
      rw [procChar_lower_eq (26 - s0) _ (by omega) (by omega)]
      rw [Int.tmod_eq_emod (by omega) (by omega)]
      omega
  · have hl' : isLetter ch = false := by revert hl; cases isLetter ch <;> simp
    rw [procChar_nonletter _ _ hl', procChar_nonletter _ _ hl']

theorem processText_encrypt_eq (t : List ℤ) (shift : ℤ) :
    processText t shift true = t.map (procChar (shift % 26)) := by
  show t.map (procChar (((shift.tmod 26) + 26).tmod 26)) = t.map (procChar (shift % 26))
  rw [jsmod26_eq_emod]
  rfl

theorem processText_decrypt_eq (t : List ℤ) (shift : ℤ) :
    processText t shift false = t.map (procChar (26 - shift % 26)) := by
  show t.map (procChar (26 - ((shift.tmod 26) + 26).tmod 26))
      = t.map (procChar (26 - shift % 26))
  rw [jsmod26_eq_emod]
  rfl

theorem processText_roundtrip (t : List ℤ) (shift : ℤ) :
    processText (processText t shift true) shift false = t := by
  rw [processText_encrypt_eq, processText_decrypt_eq, List.map_map]
  have hb : 0 ≤ shift % 26 ∧ shift % 26 < 26 :=
    ⟨Int.emod_nonneg _ (by omega), Int.emod_lt_of_pos _ (by omega)⟩
  have hcong : ∀ ch ∈ t, (procChar (26 - shift % 26) ∘ procChar (shift % 26)) ch = id ch := by
    intro ch _
    exact procChar_roundtrip (shift % 26) ch hb.1 (by omega)
  rw [List.map_congr_left hcong, List.map_id]


end CaesarCipher

namespace VigenereCipher

theorem process_roundtrip (key : List ℤ) :
    ∀ (t : List ℤ) (j : ℕ), process key false (process key true t j) j = t
  | [], _ => by simp [process]
  | ch :: rest, j => by
    by_cases hl : CaesarCipher.isLetter ch = true
    · have hs0 : 0 ≤ (key.getD (j % key.length) 65 - 65) % 26 :=
        Int.emod_nonneg _ (by omega)
      have hs1 : (key.getD (j % key.length) 65 - 65) % 26 < 26 :=
        Int.emod_lt_of_pos _ (by omega)
      have hshape := CaesarCipher.procChar_letter_shape
        ((key.getD (j % key.length) 65 - 65) % 26) ch hs0 (by omega) hl
      have henc : process key true (ch :: rest) j =
          CaesarCipher.procChar ((key.getD (j % key.length) 65 - 65) % 26) ch
            :: process key true rest (j + 1) := by
        simp only [process, hl, if_true, ite_true]
      rw [henc]
      have hdec : process key false
          (CaesarCipher.procChar ((key.getD (j % key.length) 65 - 65) % 26) ch
            :: process key true rest (j + 1)) j =
          CaesarCipher.procChar (26 - (key.getD (j % key.length) 65 - 65) % 26)
            (CaesarCipher.procChar ((key.getD (j % key.length) 65 - 65) % 26) ch)
            :: process key false (process key true rest (j + 1)) (j + 1) := by
        simp only [process, hshape.1, if_true, ite_false]
        rfl
      rw [hdec]
      rw [CaesarCipher.procChar_roundtrip _ ch hs0 (by omega)]
      rw [process_roundtrip key rest (j + 1)]
    · have hl' : CaesarCipher.isLetter ch = false := by
        revert hl; cases CaesarCipher.isLetter ch <;> simp
      have henc : process key true (ch :: rest) j = ch :: process key true rest j := by
        simp only [process, hl', Bool.false_eq_true, if_false, ite_false]
      have hdec : process key false (ch :: process key true rest j) j =
          ch :: process key false (process key true rest j) j := by
        simp only [process, hl', Bool.false_eq_true, if_false, ite_false]
      rw [henc, hdec, process_roundtrip key rest j]


end VigenereCipher


/-! ### Character preservation -/

theorem charPreserved_refl (c : ℤ) : CharPreserved c c :=
  ⟨fun _ => rfl, fun h => ⟨h, Iff.rfl⟩⟩

theorem procChar_charPreserved (s ch : ℤ) (hs0 : 0 ≤ s) (hs1 : s ≤ 26) :
    CharPreserved ch (CaesarCipher.procChar s ch) :=
  ⟨fun h => CaesarCipher.procChar_nonletter s ch h,
   fun h => CaesarCipher.procChar_letter_shape s ch hs0 hs1 h⟩

theorem preservedAt_map (f : ℤ → ℤ) (hf : ∀ c, CharPreserved c (f c)) (t : List ℤ) :
    PreservedAt t (t.map f) := by
  refine ⟨by simp, ?_⟩
  intro i hi
  rw [List.getD_eq_getElem?_getD, List.getD_eq_getElem?_getD]
  rw [List.getElem?_eq_getElem hi, List.getElem?_eq_getElem (by simpa using hi)]
  simp only [Option.getD_some, List.getElem_map]
  exact hf _

theorem caesar_processText_preservedAt (t : List ℤ) (shift : ℤ) (enc : Bool) :
    PreservedAt t (CaesarCipher.processText t shift enc) := by
  have hb : 0 ≤ shift % 26 ∧ shift % 26 < 26 :=
    ⟨Int.emod_nonneg _ (by omega), Int.emod_lt_of_pos _ (by omega)⟩
  cases enc with
  | true =>
    rw [CaesarCipher.processText_encrypt_eq]
    exact preservedAt_map _ (fun c => procChar_charPreserved _ c hb.1 (by omega)) t
  | false =>
    rw [CaesarCipher.processText_decrypt_eq]
    exact preservedAt_map _ (fun c => procChar_charPreserved _ c (by omega) (by omega)) t

theorem vigenere_process_preservedAt (key : List ℤ) (enc : Bool) :
    ∀ (t : List ℤ) (j : ℕ), PreservedAt t (VigenereCipher.process key enc t j)
  | [], j => by
    refine ⟨by simp [VigenereCipher.process], ?_⟩
    intro i hi
    simp at hi
  | ch :: rest, j => by
    have hsb : 0 ≤ (if enc = true then (key.getD (j % key.length) 65 - 65) % 26
          else 26 - (key.getD (j % key.length) 65 - 65) % 26) ∧
        (if enc = true then (key.getD (j % key.length) 65 - 65) % 26
          else 26 - (key.getD (j % key.length) 65 - 65) % 26) ≤ 26 := by
      have h1 : 0 ≤ (key.getD (j % key.length) 65 - 65) % 26 :=
        Int.emod_nonneg _ (by omega)
      have h2 : (key.getD (j % key.length) 65 - 65) % 26 < 26 :=
        Int.emod_lt_of_pos _ (by omega)
      cases enc <;> simp <;> omega
    by_cases hl : CaesarCipher.isLetter ch = true
    · have heq : VigenereCipher.process key enc (ch :: rest) j =
          CaesarCipher.procChar
            (if enc = true then (key.getD (j % key.length) 65 - 65) % 26
             else 26 - (key.getD (j % key.length) 65 - 65) % 26) ch
            :: VigenereCipher.process key enc rest (j + 1) := by
        simp only [VigenereCipher.process, hl, if_true, ite_true]
      have ih := vigenere_process_preservedAt key enc rest (j + 1)
      refine ⟨?_, ?_⟩
      · rw [heq]; simp [ih.1]
      · intro i hi
        rw [heq]
        match i with
        | 0 =>
          simp only [List.getD_cons_zero]
          exact procChar_charPreserved _ ch hsb.1 hsb.2
        | Nat.succ n =>
          simp only [List.getD_cons_succ]
          exact ih.2 n (by simp at hi; omega)
    · have hl2 : CaesarCipher.isLetter ch = false := by
        revert hl; cases CaesarCipher.isLetter ch <;> simp
      have heq : VigenereCipher.process key enc (ch :: rest) j =
          ch :: VigenereCipher.process key enc rest j := by
        simp only [VigenereCipher.process, hl2, Bool.false_eq_true, if_false, ite_false]
      have ih := vigenere_process_preservedAt key enc rest j
      refine ⟨?_, ?_⟩
      · rw [heq]; simp [ih.1]
      · intro i hi
        rw [heq]
        match i with
        | 0 =>
          simp only [List.getD_cons_zero]
          exact charPreserved_refl ch
        | Nat.succ n =>
          simp only [List.getD_cons_succ]
          exact ih.2 n (by simp at hi; omega)

/-! ### Dispatch inverse lemmas -/

theorem dispatchInverse_caesar (A : Adapters) (mode : SecurityMode) :
    DispatchInverse A mode .caesar := by
  intro t k c henc
  simp only [EncryptionManager.encrypt] at henc
  by_cases hs : startsWithShift k = true
  · rw [if_pos hs] at henc
    cases hp : parseIntJS (k.drop 6) with
    | none => rw [hp] at henc; exact absurd henc (by simp)
    | some shift =>
      rw [hp] at henc
      have hc : c = CaesarCipher.encrypt t shift := by
        cases henc; rfl
      simp only [EncryptionManager.decrypt]
      rw [if_pos hs, hp, hc]
      show Except.ok (CaesarCipher.decrypt (CaesarCipher.encrypt t shift) shift) = .ok t
      rw [CaesarCipher.decrypt, CaesarCipher.encrypt, CaesarCipher.processText_roundtrip]
  · rw [if_neg hs] at henc
    exact absurd henc (by simp)

theorem dispatchInverse_vigenere (A : Adapters) (mode : SecurityMode) :
    DispatchInverse A mode .vigenere := by
  intro t k c henc
  simp only [EncryptionManager.encrypt, VigenereCipher.encrypt] at henc
  by_cases hk : k = []
  · rw [if_pos hk] at henc; exact absurd henc (by simp)
  · rw [if_neg hk] at henc
    have hc : c = VigenereCipher.process k true t 0 := by cases henc; rfl
    simp only [EncryptionManager.decrypt, VigenereCipher.decrypt]
    rw [if_neg hk, hc, VigenereCipher.process_roundtrip]

theorem dispatchInverse_aes (A : Adapters) (mode : SecurityMode) (hA : AesRoundtrip A) :
    DispatchInverse A mode .aes := by
  intro t k c henc
  simp only [EncryptionManager.encrypt] at henc
  simp only [EncryptionManager.decrypt]
  exact hA t k mode c henc

theorem dispatchInverse_blowfish (A : Adapters) (mode : SecurityMode) (hB : BlowRoundtrip A) :
    DispatchInverse A mode .blowfish := by
  intro t k c henc
  simp only [EncryptionManager.encrypt] at henc
  simp only [EncryptionManager.decrypt]
  exact hB t k c henc

theorem dispatchInverse_rsa (A : Adapters) (mode : SecurityMode)
    (hR : RsaRoundtrip A) (hJ : JsonBlankIsError A) :
    DispatchInverse A mode .rsa := by
  intro t k c henc
  simp only [EncryptionManager.encrypt] at henc
  split at henc
  · rename_i pub priv heq
    split at henc
    · rename_i c2 he
      have hc : c = c2 := by cases henc; rfl
      have hkne : ¬(k = [] ∨ jsTrimEmpty k = true) := by
        rintro (rfl | hw)
        · have hz := hJ [] (by rfl)
          rw [hz] at heq
          exact absurd heq (by simp)
        · have hz := hJ k hw
          rw [hz] at heq
          exact absurd heq (by simp)
      simp only [EncryptionManager.decrypt]
      rw [if_neg hkne, heq]
      show A.rsaDec c priv = .ok t
      rw [hc]
      exact hR k pub priv heq t c2 he
    · exact absurd henc (by simp)
  · exact absurd henc (by simp)


/-! ### Multi-layer pipeline lemmas -/

theorem chooseKey_ne_nil (ek : KeyMap) (gen : CipherAlgorithm → List ℤ)
    (a : CipherAlgorithm) (hgen : gen a ≠ []) : chooseKey ek gen a ≠ [] := by
  unfold chooseKey
  cases kmLookup ek a with
  | none => exact hgen
  | some k =>
    by_cases hk : k = []
    · simp only [hk, if_pos rfl]; exact hgen
    · simp only [if_neg hk]; exact hk

theorem runLayersDec_append (A : Adapters) (mode : SecurityMode) (keys : KeyMap) :
    ∀ (l1 l2 : List CipherAlgorithm) (t : List ℤ),
    runLayersDec A mode keys (l1 ++ l2) t =
      (match runLayersDec A mode keys l1 t with
       | .ok t2 => runLayersDec A mode keys l2 t2
       | .error e => .error e)
  | [], l2, t => by simp [runLayersDec]
  | a :: rest, l2, t => by
    simp only [List.cons_append, runLayersDec]
    cases EncryptionManager.decrypt A t a (getKeyD keys a) mode with
    | error e => rfl
    | ok t2 => exact runLayersDec_append A mode keys rest l2 t2

theorem multiLayerEncryptGo_spec (A : Adapters) (gen : CipherAlgorithm → List ℤ)
    (mode : SecurityMode) (ek : KeyMap) (hgen : ∀ a, gen a ≠ []) :
    ∀ (algs : List CipherAlgorithm), algs.Nodup →
    (∀ a ∈ algs, DispatchInverse A mode a) →
    ∀ (t0 : List ℤ) (keys0 : KeyMap) (layers0 : List EncryptionLayer) (i : ℕ)
      (out : List ℤ × KeyMap × List EncryptionLayer),
    EncryptionManager.multiLayerEncryptGo A gen mode ek algs t0 keys0 layers0 i = .ok out →
    (∀ a, a ∉ algs → kmLookup out.2.1 a = kmLookup keys0 a) ∧
    (∀ a ∈ algs, ∃ k, kmLookup out.2.1 a = some k ∧ k ≠ []) ∧
    runLayersDec A mode out.2.1 algs.reverse out.1 = .ok t0
  | [], _, _, t0, keys0, layers0, i, out => by
    intro h
    simp only [EncryptionManager.multiLayerEncryptGo] at h
    have hout : out = (t0, keys0, layers0) := by cases h; rfl
    subst hout
    refine ⟨fun a _ => rfl, fun a ha => absurd ha (by simp), ?_⟩
    simp [runLayersDec]
  | alg :: rest, hnd, hinv, t0, keys0, layers0, i, out => by
    intro h
    simp only [EncryptionManager.multiLayerEncryptGo] at h
    cases henc : EncryptionManager.encrypt A t0 alg (chooseKey ek gen alg) mode with
    | error e => rw [henc] at h; exact absurd h (by simp)
    | ok c =>
      rw [henc] at h
      have hndr : rest.Nodup := (List.nodup_cons.1 hnd).2
      have hmem : alg ∉ rest := (List.nodup_cons.1 hnd).1
      have ih := multiLayerEncryptGo_spec A gen mode ek hgen rest hndr
        (fun a ha => hinv a (by simp [ha])) c ((alg, chooseKey ek gen alg) :: keys0)
        (layers0 ++ [⟨alg, chooseKey ek gen alg, i + 1⟩]) (i + 1) out h
      obtain ⟨ih1, ih2, ih3⟩ := ih
      have hlook : kmLookup out.2.1 alg = some (chooseKey ek gen alg) := by
        rw [ih1 alg hmem]
        simp [kmLookup]
      refine ⟨?_, ?_, ?_⟩
      · intro a ha
        have hane : a ≠ alg := fun hc => ha (by simp [hc])
        have har : a ∉ rest := fun hc => ha (by simp [hc])
        rw [ih1 a har]
        simp only [kmLookup]
        rw [if_neg (fun hc => hane hc.symm)]
      · intro a ha
        rcases List.mem_cons.1 ha with rfl | har
        · exact ⟨chooseKey ek gen a, hlook, chooseKey_ne_nil ek gen a (hgen a)⟩
        · exact ih2 a har
      · rw [List.reverse_cons, runLayersDec_append A mode out.2.1, ih3]
        show runLayersDec A mode out.2.1 [alg] c = .ok t0
        have hkey : getKeyD out.2.1 alg = chooseKey ek gen alg := by
          rw [getKeyD, hlook]; rfl
        have hdec := hinv alg (by simp) t0 (chooseKey ek gen alg) c henc
        simp only [runLayersDec, hkey, hdec]

theorem multiLayerDecryptGo_ok (A : Adapters) (mode : SecurityMode) (keys : KeyMap)
    (total : ℕ) :
    ∀ (l : List CipherAlgorithm) (t t2 : List ℤ) (layers0 : List EncryptionLayer) (pos : ℕ),
    runLayersDec A mode keys l t = .ok t2 →
    EncryptionManager.multiLayerDecryptGo A mode keys total l t layers0 pos =
      .ok (t2, layers0 ++ mkLayers keys l pos)
  | [], t, t2, layers0, pos => by
    intro h
    simp only [runLayersDec] at h
    have ht : t = t2 := by cases h; rfl
    subst ht
    simp [EncryptionManager.multiLayerDecryptGo, mkLayers]
  | a :: rest, t, t2, layers0, pos => by
    intro h
    simp only [runLayersDec] at h
    cases hd : EncryptionManager.decrypt A t a (getKeyD keys a) mode with
    | error e => rw [hd] at h; exact absurd h (by simp)
    | ok tmid =>
      rw [hd] at h
      have h2 : runLayersDec A mode keys rest tmid = .ok t2 := h
      simp only [EncryptionManager.multiLayerDecryptGo, hd]
      have hml : layers0 ++ mkLayers keys (a :: rest) pos =
          (layers0 ++ [⟨a, getKeyD keys a, pos + 1⟩]) ++ mkLayers keys rest (pos + 1) := by
        simp [mkLayers]
      rw [hml]
      exact multiLayerDecryptGo_ok A mode keys total rest tmid t2
        (layers0 ++ [⟨a, getKeyD keys a, pos + 1⟩]) (pos + 1) h2

theorem multiLayerDecryptGo_err (A : Adapters) (mode : SecurityMode) (keys : KeyMap)
    (total : ℕ) :
    ∀ (pre : List CipherAlgorithm) (a : CipherAlgorithm) (suf : List CipherAlgorithm)
      (t t2 : List ℤ) (layers0 : List EncryptionLayer) (pos : ℕ) (e : CipherErr),
    runLayersDec A mode keys pre t = .ok t2 →
    EncryptionManager.decrypt A t2 a (getKeyD keys a) mode = .error e →
    EncryptionManager.multiLayerDecryptGo A mode keys total (pre ++ a :: suf) t layers0 pos =
      .error (.layerFailure (pos + pre.length + 1) total a mode e)
  | [], a, suf, t, t2, layers0, pos, e => by
    intro h hd
    simp only [runLayersDec] at h
    have ht : t = t2 := by cases h; rfl
    subst ht
    simp only [List.nil_append, EncryptionManager.multiLayerDecryptGo, hd, List.length_nil]
  | b :: pre, a, suf, t, t2, layers0, pos, e => by
    intro h hd
    simp only [runLayersDec] at h
    cases hb : EncryptionManager.decrypt A t b (getKeyD keys b) mode with
    | error e2 => rw [hb] at h; exact absurd h (by simp)
    | ok tmid =>
      rw [hb] at h
      have h2 : runLayersDec A mode keys pre tmid = .ok t2 := h
      simp only [List.cons_append, EncryptionManager.multiLayerDecryptGo, hb]
      have hrec := multiLayerDecryptGo_err A mode keys total pre a suf tmid t2
        (layers0 ++ [⟨b, getKeyD keys b, pos + 1⟩]) (pos + 1) e h2 hd
      have harith : pos + (b :: pre).length + 1 = (pos + 1) + pre.length + 1 := by
        simp only [List.length_cons]
        omega
      rw [harith]
      exact hrec

theorem mkLayers_getD (keys : KeyMap) :
    ∀ (l : List CipherAlgorithm) (pos j : ℕ), j < l.length →
    (mkLayers keys l pos).getD j ⟨.aes, [], 0⟩ =
      ⟨l.getD j .aes, getKeyD keys (l.getD j .aes), pos + j + 1⟩
  | [], pos, j => by intro h; simp at h
  | a :: rest, pos, j => by
    intro h
    match j with
    | 0 => simp [mkLayers]
    | Nat.succ n =>
      simp only [mkLayers, List.getD_cons_succ]
      rw [mkLayers_getD keys rest (pos + 1) n (by simp at h; omega)]
      congr 1
      omega

theorem keyAbsent_false_iff (keys : KeyMap) (a : CipherAlgorithm) :
    keyAbsent keys a = false ↔ ∃ k, kmLookup keys a = some k ∧ k ≠ [] := by
  unfold keyAbsent
  cases h : kmLookup keys a with
  | none => simp
  | some v =>
    by_cases hv : v = []
    · subst hv; simp
    · simp [hv]


theorem multiLayer_roundtrip_core (A : Adapters) (gen : CipherAlgorithm → List ℤ)
    (mode : SecurityMode) (ek : KeyMap) (pt : List ℤ)
    (algs : List CipherAlgorithm) (out : List ℤ × KeyMap × List EncryptionLayer)
    (hgen : ∀ a, gen a ≠ [])
    (hnd : algs.Nodup)
    (hinv : ∀ a ∈ algs, DispatchInverse A mode a)
    (henc : EncryptionManager.multiLayerEncrypt A gen pt algs mode ek = .ok out) :
    EncryptionManager.multiLayerDecrypt A out.1 algs out.2.1 mode =
      .ok (pt, mkLayers out.2.1 algs.reverse 0) := by
  have hspec := multiLayerEncryptGo_spec A gen mode ek hgen algs hnd hinv pt [] [] 0 out henc
  obtain ⟨_, h2, h3⟩ := hspec
  have hfilter : algs.filter (fun a => keyAbsent out.2.1 a) = [] := by
    rw [List.filter_eq_nil_iff]
    intro a ha
    have hf := (keyAbsent_false_iff out.2.1 a).2 (h2 a ha)
    simp [hf]
  simp only [EncryptionManager.multiLayerDecrypt]
  rw [hfilter]
  rw [if_pos rfl]
  have hgo := multiLayerDecryptGo_ok A mode out.2.1 algs.length algs.reverse out.1 pt [] 0 h3
  simpa using hgo


/-! ### Claims -/

/-- C7: `getRecommendedAlgorithms` returns exactly the ordered 5-element
chain [aes, rsa, vigenere, blowfish, caesar] for mode `high`, exactly the
ordered 3-element chain [aes, vigenere, blowfish] for mode `balanced`,
and a 2-element chain for mode `lightweight`. -/
theorem claim_C7_recommended_algorithms :
    EncryptionManager.getRecommendedAlgorithms .high =
      [.aes, .rsa, .vigenere, .blowfish, .caesar] ∧
    EncryptionManager.getRecommendedAlgorithms .balanced =
      [.aes, .vigenere, .blowfish] ∧
    (EncryptionManager.getRecommendedAlgorithms .lightweight).length = 2 :=
  ⟨rfl, rfl, rfl⟩

/-- C2: for every 2×2 key matrix with entries in [0, 25] that is invertible
modulo 26 (the code's own `isInvertible` check) and every plaintext —
including the empty string — whose char codes are all at most 17575,
`HillCipher.decrypt (HillCipher.encrypt text M) M` returns exactly `text`:
the 3-letter base-26 per-character encoding, the sentinel padding to a
multiple of the block size, and the 2-letter padding-length prefix all
round-trip exactly. -/
theorem claim_C2_hill_roundtrip (m : HillCipher.Mat2) (pt : List ℤ)
    (hm : (0 ≤ m.a ∧ m.a ≤ 25) ∧ (0 ≤ m.b ∧ m.b ≤ 25) ∧
          (0 ≤ m.c ∧ m.c ≤ 25) ∧ (0 ≤ m.d ∧ m.d ≤ 25))
    (hinv : HillCipher.isInvertible m = true)
    (hpt : ∀ c ∈ pt, 0 ≤ c ∧ c ≤ 17575) :
    HillCipher.decrypt (HillCipher.encrypt pt m) m = pt :=
  HillCipher.hill_roundtrip_core m pt hm hinv hpt

/-- C2 witness: the round-trip at the key [[3, 3], [2, 5]] and the
plaintext "Hi" (codes [72, 105]). -/
theorem claim_C2_witness :
    HillCipher.isInvertible ⟨3, 3, 2, 5⟩ = true ∧
    HillCipher.decrypt (HillCipher.encrypt [72, 105] ⟨3, 3, 2, 5⟩) ⟨3, 3, 2, 5⟩ =
      [72, 105] :=
  ⟨by decide,
   claim_C2_hill_roundtrip ⟨3, 3, 2, 5⟩ [72, 105] (by decide) (by decide) (by decide)⟩

/-- C3 counterexample: at the non-invertible key [[2, 0], [0, 2]]
(determinant 4, gcd(4, 26) = 2 ≠ 1), `decrypt` does not fail with a
`KeyNotInvertible` error: `modInverse` silently falls back to 1 and
`decrypt` of the 8-letter ciphertext "AAAAAAAA" returns the string with
codes [0, 0]. -/
theorem claim_C3_counterexample :
    Int.gcd (HillCipher.detModOf ⟨2, 0, 0, 2⟩) 26 ≠ 1 ∧
    HillCipher.modInverse (HillCipher.detModOf ⟨2, 0, 0, 2⟩) 26 = 1 ∧
    HillCipher.decrypt [65, 65, 65, 65, 65, 65, 65, 65] ⟨2, 0, 0, 2⟩ = [0, 0] := by
  refine ⟨by decide, by decide, by decide⟩

/-- C3 (amended): for every key matrix whose determinant reduced modulo 26
is not coprime with 26, decryption does NOT fail deterministically:
`modInverse` falls back to returning 1, so `invertMatrix` degenerates to
the plain adjugate reduced mod 26 and `decrypt` still returns a
(generally incorrect) string. -/
theorem claim_C3_amended (m : HillCipher.Mat2)
    (hg : Int.gcd (HillCipher.detModOf m) 26 ≠ 1) :
    HillCipher.modInverse (HillCipher.detModOf m) 26 = 1 ∧
    HillCipher.invertMatrix m = ⟨m.d % 26, (-m.b) % 26, (-m.c) % 26, m.a % 26⟩ :=
  HillCipher.hill_noninvertible_no_failure m hg

/-- C3 witness: the amended claim at the key [[2, 0], [0, 2]]. -/
theorem claim_C3_witness :
    HillCipher.modInverse (HillCipher.detModOf ⟨2, 0, 0, 2⟩) 26 = 1 ∧
    HillCipher.invertMatrix ⟨2, 0, 0, 2⟩ =
      ⟨(2 : ℤ) % 26, (-(0 : ℤ)) % 26, (-(0 : ℤ)) % 26, (2 : ℤ) % 26⟩ :=
  claim_C3_amended ⟨2, 0, 0, 2⟩ (by decide)

/-- C6: every matrix returned by `generateKey(2)` — for every possible
stream of random candidate matrices — is invertible modulo 26: the loop
retries up to 100 samples and otherwise returns the fixed known-invertible
fallback [[3, 3], [2, 5]]. -/
theorem claim_C6_generateKey_invertible (sample : ℕ → HillCipher.Mat2) :
    HillCipher.isInvertible (HillCipher.generateKey sample) = true :=
  HillCipher.generateKey_invertible sample

/-- C10: for every key matrix with nonnegative entries and every plaintext
whose char codes are in [0, 17575], Hill ciphertext consists only of
uppercase letters A–Z (codes 65–90), and its length is 2 plus the
3-letter-encoded length rounded up to a multiple of the block size 2 —
so Hill ciphertext is valid input for the letter-based ciphers. -/
theorem claim_C10_hill_ciphertext_shape (m : HillCipher.Mat2) (pt : List ℤ)
    (hm : 0 ≤ m.a ∧ 0 ≤ m.b ∧ 0 ≤ m.c ∧ 0 ≤ m.d)
    (hpt : ∀ c ∈ pt, 0 ≤ c ∧ c ≤ 17575) :
    (∀ x ∈ HillCipher.encrypt pt m, 65 ≤ x ∧ x ≤ 90) ∧
    (HillCipher.encrypt pt m).length =
      2 + (3 * pt.length + (2 - (3 * pt.length) % 2) % 2) :=
  HillCipher.hill_encrypt_shape_core m pt hm hpt

/-- C10 witness: the shape of the ciphertext of "Hello" (codes
[72, 101, 108, 108, 111]) under the key [[3, 3], [2, 5]]. -/
theorem claim_C10_witness :
    (∀ x ∈ HillCipher.encrypt [72, 101, 108, 108, 111]
      (⟨3, 3, 2, 5⟩ : HillCipher.Mat2), 65 ≤ x ∧ x ≤ 90) ∧
    (HillCipher.encrypt [72, 101, 108, 108, 111]
      (⟨3, 3, 2, 5⟩ : HillCipher.Mat2)).length =
      2 + (3 * ([72, 101, 108, 108, 111] : List ℤ).length +
        (2 - (3 * ([72, 101, 108, 108, 111] : List ℤ).length) % 2) % 2) :=
  claim_C10_hill_ciphertext_shape ⟨3, 3, 2, 5⟩ [72, 101, 108, 108, 111]
    (by decide) (by decide)

/-- C9: for every text, every integer shift and both directions, Caesar
emits every non-letter unchanged at the same position and preserves every
letter's case (`PreservedAt`); Vigenère with any non-empty key does the
same in both directions (and its encrypt/decrypt wrappers succeed,
returning exactly the processed text). -/
theorem claim_C9_nonalpha_preservation (text : List ℤ) (shift : ℤ)
    (key : List ℤ) (isEncrypt : Bool) (hk : key ≠ []) :
    PreservedAt text (CaesarCipher.processText text shift isEncrypt) ∧
    (VigenereCipher.encrypt text key = .ok (VigenereCipher.process key true text 0) ∧
     VigenereCipher.decrypt text key = .ok (VigenereCipher.process key false text 0)) ∧
    PreservedAt text (VigenereCipher.process key isEncrypt text 0) := by
  refine ⟨caesar_processText_preservedAt text shift isEncrypt, ⟨?_, ?_⟩,
    vigenere_process_preservedAt key isEncrypt text 0⟩
  · simp [VigenereCipher.encrypt, hk]
  · simp [VigenereCipher.decrypt, hk]

/-- C9 witness: preservation on "Hi!" (codes [72, 105, 33]) with Caesar
shift 7 and Vigenère key "KEY" (codes [75, 69, 89]). -/
theorem claim_C9_witness :
    PreservedAt [72, 105, 33] (CaesarCipher.processText [72, 105, 33] 7 true) ∧
    (VigenereCipher.encrypt [72, 105, 33] [75, 69, 89] =
      .ok (VigenereCipher.process [75, 69, 89] true [72, 105, 33] 0) ∧
     VigenereCipher.decrypt [72, 105, 33] [75, 69, 89] =
      .ok (VigenereCipher.process [75, 69, 89] false [72, 105, 33] 0)) ∧
    PreservedAt [72, 105, 33] (VigenereCipher.process [75, 69, 89] true [72, 105, 33] 0) :=
  claim_C9_nonalpha_preservation [72, 105, 33] 7 [75, 69, 89] true (by decide)


/-- C4: for every adapter pack, ciphertext, chain, key map and mode, if at
least one chain algorithm has no non-empty key in the map, then
`multiLayerDecrypt` fails with a `MissingKeys` error naming exactly the
chain algorithms absent from the map — all of them, not only the first.
The error value is the same for every adapter pack and every ciphertext,
so the failure happens before any per-algorithm decrypt is invoked. -/
theorem claim_C4_missing_keys (A : Adapters) (ct : List ℤ)
    (algs : List CipherAlgorithm) (keys : KeyMap) (mode : SecurityMode)
    (h : ∃ a ∈ algs, keyAbsent keys a = true) :
    EncryptionManager.multiLayerDecrypt A ct algs keys mode =
      .error (.missingKeys (algs.filter (fun a => keyAbsent keys a))) ∧
    (∀ a, a ∈ algs.filter (fun a => keyAbsent keys a) ↔
      a ∈ algs ∧ keyAbsent keys a = true) := by
  have hne : algs.filter (fun a => keyAbsent keys a) ≠ [] := by
    obtain ⟨a, ha, hab⟩ := h
    intro hc
    rw [List.filter_eq_nil_iff] at hc
    exact hc a ha (by simp [hab])
  constructor
  · simp only [EncryptionManager.multiLayerDecrypt]
    rw [if_neg hne]
  · intro a
    rw [List.mem_filter]

/-- C4 witness: a lightweight chain whose Vigenère key is absent fails
with `MissingKeys`, independently of ciphertext and adapters. -/
theorem claim_C4_witness :
    EncryptionManager.multiLayerDecrypt idAdapters [65]
      [.caesar, .vigenere] [(CipherAlgorithm.caesar, [83])] .lightweight =
      .error (.missingKeys ([CipherAlgorithm.caesar, CipherAlgorithm.vigenere].filter
        (fun a => keyAbsent [(CipherAlgorithm.caesar, [83])] a))) :=
  (claim_C4_missing_keys idAdapters [65] [.caesar, .vigenere]
    [(CipherAlgorithm.caesar, [83])] .lightweight
    ⟨.vigenere, by decide, by decide⟩).1

/-- C5: once the up-front key validation passes, `multiLayerDecrypt`
processes the chain in strictly reverse order (`algs.reverse`):
(i) if the first failure along the reversed chain happens after `pre`
successfully processed layers, the whole call aborts — later layers are
never reached, as the result only depends on the prefix — with a
`layerFailure` error recording the 1-based failing position
`pre.length + 1`, the chain length, the failing algorithm and the mode in
effect; (ii) if every layer succeeds, the result is the final text
together with the layer manifest `mkLayers keys algs.reverse 0`; and
(iii) the j-th processed entry of that manifest (chain position
i = N - j, 0-based j) carries `order = j + 1 = N - i + 1` along with the
algorithm and its key. -/
theorem claim_C5_reverse_order_abort (A : Adapters) (mode : SecurityMode)
    (keys : KeyMap) (algs : List CipherAlgorithm) (ct : List ℤ)
    (hpresent : algs.filter (fun a => keyAbsent keys a) = []) :
    (∀ pre a suf t e, algs.reverse = pre ++ a :: suf →
       runLayersDec A mode keys pre ct = .ok t →
       EncryptionManager.decrypt A t a (getKeyD keys a) mode = .error e →
       EncryptionManager.multiLayerDecrypt A ct algs keys mode =
         .error (.layerFailure (pre.length + 1) algs.length a mode e)) ∧
    (∀ t, runLayersDec A mode keys algs.reverse ct = .ok t →
       EncryptionManager.multiLayerDecrypt A ct algs keys mode =
         .ok (t, mkLayers keys algs.reverse 0)) ∧
    (∀ j, j < algs.length →
       (mkLayers keys algs.reverse 0).getD j ⟨.aes, [], 0⟩ =
         ⟨algs.reverse.getD j .aes, getKeyD keys (algs.reverse.getD j .aes), j + 1⟩) := by
  refine ⟨?_, ?_, ?_⟩
  · intro pre a suf t e hsplit hrun hfail
    simp only [EncryptionManager.multiLayerDecrypt]
    rw [if_pos hpresent, hsplit]
    have hgo := multiLayerDecryptGo_err A mode keys algs.length pre a suf ct t [] 0 e
      hrun hfail
    simpa using hgo
  · intro t hrun
    simp only [EncryptionManager.multiLayerDecrypt]
    rw [if_pos hpresent]
    have hgo := multiLayerDecryptGo_ok A mode keys algs.length algs.reverse ct t [] 0 hrun
    simpa using hgo
  · intro j hj
    have hj2 : j < algs.reverse.length := by simpa using hj
    have := mkLayers_getD keys algs.reverse 0 j hj2
    simpa using this

/-- C5 witness: over the lightweight chain [caesar, vigenere] with a
well-formed Vigenère key "KEY" but a malformed Caesar key "XX", the
Vigenère layer (processed first) succeeds and the Caesar layer fails, so
the whole decryption aborts with a `layerFailure` at processed position 2
of 2 naming `caesar` and the mode. -/
theorem claim_C5_witness :
    EncryptionManager.multiLayerDecrypt idAdapters [72, 105]
      [.caesar, .vigenere]
      [(CipherAlgorithm.caesar, [88, 88]), (CipherAlgorithm.vigenere, [75, 69, 89])]
      .lightweight =
      .error (.layerFailure 2 2 .caesar .lightweight .invalidCaesarFormat) := by
  have h := (claim_C5_reverse_order_abort idAdapters .lightweight
    [(CipherAlgorithm.caesar, [88, 88]), (CipherAlgorithm.vigenere, [75, 69, 89])]
    [.caesar, .vigenere] [72, 105] (by decide)).1
    [.vigenere] .caesar [] [88, 101] .invalidCaesarFormat
    (by decide) (by decide) (by decide)
  simpa using h

/-- C8 counterexample (to "encrypt raises a distinct IncompleteKey"): on
the ENCRYPT dispatch a malformed-JSON key ("{", code [123]) and a
valid-JSON key missing both fields ("{}", codes [123, 125]) raise the
very same `rsaInvalidFormat` error — encryption does not distinguish
CorruptKey from IncompleteKey. -/
theorem claim_C8_counterexample :
    EncryptionManager.encrypt jsonAdapters [72] .rsa [123] .balanced =
      .error .rsaInvalidFormat ∧
    EncryptionManager.encrypt jsonAdapters [72] .rsa [123, 125] .balanced =
      .error .rsaInvalidFormat ∧
    EncryptionManager.encrypt jsonAdapters [72] .rsa [123] .balanced =
      EncryptionManager.encrypt jsonAdapters [72] .rsa [123, 125] .balanced := by
  refine ⟨by decide, by decide, by decide⟩

/-- C8 (amended): RSA key validation happens at the dispatch boundary
before any cipher work (the resulting errors below hold for every adapter
pack, i.e. they do not depend on the rsa cipher fields).  On DECRYPT the
two defects are distinguished: a key that is not valid JSON raises
`rsaCorrupt` and a valid-JSON key with a missing (falsy) `publicKey` or
`privateKey` field raises the distinct `rsaIncomplete`.  On ENCRYPT both
defects raise the same `rsaInvalidFormat` error, not two distinct ones. -/
theorem claim_C8_amended (A : Adapters) (t k : List ℤ) (mode : SecurityMode)
    (hk1 : k ≠ []) (hk2 : jsTrimEmpty k = false) :
    (A.jsonParse k = .parseFailure →
       EncryptionManager.decrypt A t .rsa k mode = .error .rsaCorrupt ∧
       EncryptionManager.encrypt A t .rsa k mode = .error .rsaInvalidFormat) ∧
    (∀ hp hpr pub priv, A.jsonParse k = .parsed hp hpr pub priv →
       (hp = false ∨ hpr = false) →
       EncryptionManager.decrypt A t .rsa k mode = .error .rsaIncomplete ∧
       EncryptionManager.encrypt A t .rsa k mode = .error .rsaInvalidFormat) := by
  have hcond : ¬(k = [] ∨ jsTrimEmpty k = true) := by
    rintro (rfl | hw)
    · exact hk1 rfl
    · rw [hk2] at hw
      exact absurd hw (by simp)
  constructor
  · intro hparse
    constructor
    · simp only [EncryptionManager.decrypt]
      rw [if_neg hcond, hparse]
    · simp only [EncryptionManager.encrypt]
      rw [hparse]
  · intro hp hpr pub priv hparse hmiss
    constructor
    · simp only [EncryptionManager.decrypt]
      rw [if_neg hcond, hparse]
      have hand : (hp && hpr) = false := by
        rcases hmiss with rfl | rfl
        · rfl
        · simp
      show (if (hp && hpr) = true then A.rsaDec t priv else .error .rsaIncomplete) =
        .error .rsaIncomplete
      rw [hand]
      simp
    · simp only [EncryptionManager.encrypt]
      rw [hparse]
      rcases hmiss with rfl | rfl
      · rfl
      · cases hp <;> rfl

/-- C8 witness: the amended claim at the concrete incomplete key "{}"
under the JSON oracle mirroring `JSON.parse` on it. -/
theorem claim_C8_witness :
    EncryptionManager.decrypt jsonAdapters [72] .rsa [123, 125] .balanced =
      .error .rsaIncomplete ∧
    EncryptionManager.encrypt jsonAdapters [72] .rsa [123, 125] .balanced =
      .error .rsaInvalidFormat :=
  (claim_C8_amended jsonAdapters [72] [123, 125] .balanced (by decide) (by decide)).2
    false false [] [] (by decide) (Or.inl rfl)

/-- C1: for every security mode, chain = `getRecommendedAlgorithms mode`,
under the spec's stated black-box assumptions on the delegated primitives
(AES, RSA and Blowfish decryption invert their encryption; `JSON.parse`
rejects blank strings) and a key generator producing non-empty keys: if
`multiLayerEncrypt` succeeds with ciphertext `out.1` and key map
`out.2.1`, then `multiLayerDecrypt` of that ciphertext over the same
chain, keys and mode succeeds and the decrypted result equals the
plaintext exactly. -/
theorem claim_C1_chain_roundtrip (A : Adapters) (gen : CipherAlgorithm → List ℤ)
    (mode : SecurityMode) (ek : KeyMap) (pt : List ℤ)
    (out : List ℤ × KeyMap × List EncryptionLayer)
    (hgen : ∀ a, gen a ≠ [])
    (haes : AesRoundtrip A) (hblow : BlowRoundtrip A) (hrsa : RsaRoundtrip A)
    (hjson : JsonBlankIsError A)
    (henc : EncryptionManager.multiLayerEncrypt A gen pt
      (EncryptionManager.getRecommendedAlgorithms mode) mode ek = .ok out) :
    EncryptionManager.multiLayerDecrypt A out.1
      (EncryptionManager.getRecommendedAlgorithms mode) out.2.1 mode =
      .ok (pt, mkLayers out.2.1
        (EncryptionManager.getRecommendedAlgorithms mode).reverse 0) := by
  apply multiLayer_roundtrip_core A gen mode ek pt
    (EncryptionManager.getRecommendedAlgorithms mode) out hgen ?_ ?_ henc
  · cases mode <;> decide
  · intro a ha
    cases a with
    | aes => exact dispatchInverse_aes A mode haes
    | rsa => exact dispatchInverse_rsa A mode hrsa hjson
    | vigenere => exact dispatchInverse_vigenere A mode
    | blowfish => exact dispatchInverse_blowfish A mode hblow
    | caesar => exact dispatchInverse_caesar A mode
    | hill => exact absurd ha (by cases mode <;> decide)

/-- C1 witness: the lightweight chain on plaintext "Hi" (codes [72, 105])
with concrete generated keys ("SHIFT-7" for Caesar, "KEY" for Vigenère)
and identity delegated adapters: encryption yields ciphertext
[89, 116] and decryption recovers [72, 105]. -/
theorem claim_C1_witness :
    EncryptionManager.multiLayerDecrypt idAdapters [89, 116]
      (EncryptionManager.getRecommendedAlgorithms .lightweight)
      [(CipherAlgorithm.vigenere, [75, 69, 89]),
       (CipherAlgorithm.caesar, [83, 72, 73, 70, 84, 45, 55])] .lightweight =
      .ok ([72, 105], mkLayers
        [(CipherAlgorithm.vigenere, [75, 69, 89]),
         (CipherAlgorithm.caesar, [83, 72, 73, 70, 84, 45, 55])]
        (EncryptionManager.getRecommendedAlgorithms .lightweight).reverse 0) :=
  claim_C1_chain_roundtrip idAdapters genKeys0 .lightweight [] [72, 105]
    ([89, 116],
     [(CipherAlgorithm.vigenere, [75, 69, 89]),
      (CipherAlgorithm.caesar, [83, 72, 73, 70, 84, 45, 55])],
     [⟨.caesar, [83, 72, 73, 70, 84, 45, 55], 1⟩, ⟨.vigenere, [75, 69, 89], 2⟩])
    (by intro a; cases a <;> decide)
    (by intro t k m c h; cases h; rfl)
    (by intro t k c h; cases h; rfl)
    (by intro k pub priv hp t c h; cases h; rfl)
    (by
      intro sw hs
      show (if sw = [80] then RsaParse.parsed true true [80] [81] else .parseFailure) =
        .parseFailure
      rw [if_neg]
      rintro rfl
      exact absurd hs (by decide))
    (by decide)

end SuperCipher
